import Mathlib

/-!
Verification of the FFI string core of `libcommons` (`src/ffi/str.rs`,
with the stack-string collaborator from `src/str/stack.rs`).

The Rust code is shallowly embedded:
* a heap allocation is modelled as an allocation identifier together with the
  list of bytes it holds (bytes are `Nat`, always `< 256` for real inputs);
* `usize` arithmetic is `Nat` with explicit `2 ^ 64` bounds where the source
  uses checked operations;
* panics / aborts are an explicit `Panic` error in `Except`;
* allocation, buffer filling and destructor invocation are recorded in an
  event trace so that single-deallocation (temporal) properties can be stated.
-/

namespace Libcommons

/-- `usize::MAX` on a 64-bit target. -/
def USIZE_MAX : Nat := 2 ^ 64 - 1

/-- Writing `src` into a buffer starting at byte offset `pos`
(Rust `dst[pos..pos + src.len()].copy_from_slice(src)`). -/
def listWrite (dst : List Nat) (pos : Nat) (src : List Nat) : List Nat :=
  dst.take pos ++ src ++ dst.drop (pos + src.length)

/-- `p` is a power of two. -/
def IsPow2 (p : Nat) : Prop := ∃ k, p = 2 ^ k

/-- Fueled computation of the least power of two that is `≥ n`
(the contract of Rust `usize::next_power_of_two`).  The fuel only serves
termination; `fuel = 70` is exact for every `n ≤ 2 ^ 70`. -/
def next_power_of_two_aux : Nat → Nat → Nat
  | 0, _ => 1
  | fuel + 1, n => if n ≤ 1 then 1 else 2 * next_power_of_two_aux fuel ((n + 1) / 2)

/-- Rust `usize::next_power_of_two` (least power of two `≥ n`; `1` for `n = 0`),
exact for all `n ≤ 2 ^ 70`, which covers every sum of two `usize` values. -/
def next_power_of_two (n : Nat) : Nat := next_power_of_two_aux 70 n

/-- Rust `usize::checked_next_power_of_two`: `none` exactly when the next
power of two does not fit in `usize`. -/
def checked_next_power_of_two (n : Nat) : Option Nat :=
  if next_power_of_two n ≤ USIZE_MAX then some (next_power_of_two n) else none

/-- Rust `x.checked_mul(2)` on `usize`. -/
def checked_mul2 (x : Nat) : Option Nat :=
  if 2 * x ≤ USIZE_MAX then some (2 * x) else none

/-- Abort-class failures of the embedded code.  `stringTooLong` is the
`.expect("string is too long")` overflow abort in `FfiString::push_str`;
the two slice panics are the possible `copy_from_slice` failures;
`nullDeref` marks undefined behaviour (writing through a null pointer),
unreachable from states satisfying the buffer invariant;
`unwrapFailed` is the `.unwrap()` in `FfiString::push`. -/
inductive Panic where
  | stringTooLong
  | sliceIndexFault
  | copyFromSliceLenMismatch
  | nullDeref
  | unwrapFailed
  deriving DecidableEq, Repr

/-- Heap events: a fresh allocation, the filling of an allocation's bytes,
and the run of an allocation's destructor (`__libcommons_rust_drop`). -/
inductive Event where
  | alloc (id : Nat)
  | fill (id : Nat)
  | free (id : Nat)
  deriving DecidableEq, Repr

/-- Number of occurrences of event `e` in a trace. -/
def countEv (e : Event) : List Event → Nat
  | [] => 0
  | x :: xs => (if x = e then 1 else 0) + countEv e xs

/-- `FfiString` (src/ffi/str.rs lines 166-171): `buf` is the heap pointer,
modelled as `none` for null and `some (id, bytes)` for a pointer into
allocation `id` whose full contents (one byte per capacity slot) are `bytes`;
`len` and `capacity` are the `usize` fields; `drop` records whether the
optional destructor pointer is attached (the only destructor ever stored is
`__libcommons_rust_drop`, so a `Bool` is faithful). -/
structure FfiString where
  buf : Option (Nat × List Nat)
  len : Nat
  capacity : Nat
  drop : Bool
  deriving DecidableEq, Repr

/-- Allocation identity held by the buffer (the pointer's value). -/
def FfiString.bufId (st : FfiString) : Option Nat := st.buf.map Prod.fst

/-- `FfiString::new` (lines 183-190): null buffer, no allocation. -/
def FfiString.new : FfiString :=
  { buf := none, len := 0, capacity := 0, drop := false }

/-- `FfiString::with_capacity` (lines 202-216): `len = 0` returns `new`;
otherwise one allocation of exactly `n` bytes (the source's own doctest,
lines 287-291, asserts `with_capacity(128).capacity() == 128`), length `0`,
destructor attached.  `fresh` is the next unused allocation identifier. -/
def FfiString.with_capacity (n : Nat) (fresh : Nat) :
    FfiString × Nat × List Event :=
  if n = 0 then (FfiString.new, fresh, [])
  else
    ({ buf := some (fresh, List.replicate n 0), len := 0, capacity := n,
       drop := true },
     fresh + 1, [Event.alloc fresh])

/-- `impl From<String> for FfiString` (lines 410-424): take over the
`String`'s buffer; a zero-capacity `String` holds no allocation, so the
field values are null / no destructor in that case.  `bs` are the string's
bytes, `cap` its capacity (a real `String` has `bs.length ≤ cap`). -/
def FfiString.from_string (bs : List Nat) (cap : Nat) (fresh : Nat) :
    FfiString × Nat × List Event :=
  if cap = 0 then
    ({ buf := none, len := bs.length, capacity := cap, drop := false },
     fresh, [])
  else
    ({ buf := some (fresh, bs ++ List.replicate (cap - bs.length) 0),
       len := bs.length, capacity := cap, drop := true },
     fresh + 1, [Event.alloc fresh])

/-- `impl From<&str> for FfiString` (lines 426-430): `String::from(value)`
allocates exactly `value.len()` bytes (capacity `0` for the empty string),
then converts as `From<String>`. -/
def FfiString.from_str (bs : List Nat) (fresh : Nat) :
    FfiString × Nat × List Event :=
  FfiString.from_string bs bs.length fresh

/-- `FfiString::as_bytes` (lines 226-232): empty slice for a null buffer,
otherwise the first `len` bytes of the allocation. -/
def FfiString.as_bytes (st : FfiString) : List Nat :=
  match st.buf with
  | none => []
  | some p => p.2.take st.len

/-- `FfiString::as_ffi_str` (lines 254-256): `FfiStr::from_raw_parts(buf, len)`,
i.e. the first `len` bytes behind the pointer (under the invariant, `len = 0`
whenever the buffer is null, so the null case reads zero bytes). -/
def FfiString.as_ffi_str (st : FfiString) : List Nat :=
  match st.buf with
  | none => []
  | some p => p.2.take st.len

/-- `FfiString::push_str` (lines 311-355), including its two slice panics.

* empty input returns at once;
* if `len + olen ≤ capacity`, copy in place (`[self.len..][..olen]`, line 320)
  and advance `len`;
* otherwise compute
  `(capacity + olen).checked_next_power_of_two().and_then(|x| x.checked_mul(2))`
  and abort (`expect`) on `None` (lines 326-329);
* allocate `newsize` bytes, wrap them in a string of length `len + olen`
  (uninitialised bytes modelled as `0`), copy the old contents to the front
  (line 338, skipped for a null buffer), then copy the new bytes with
  `newstring.as_bytes_mut()[self.len..olen].copy_from_slice(str.as_bytes())`
  (line 340) — which panics unless `self.len = 0`: the range is invalid when
  `olen < self.len`, and otherwise has length `olen - self.len ≠ olen`;
* run the old buffer's destructor (lines 342-346), then install the new
  pointer, length, destructor and capacity and forget the temporary. -/
def FfiString.push_str (st : FfiString) (s : List Nat) (fresh : Nat) :
    Except Panic (FfiString × Nat × List Event) :=
  if s = [] then .ok (st, fresh, [])
  else
    let olen := s.length
    if st.len + olen ≤ st.capacity then
      match st.buf with
      | none => .error Panic.nullDeref
      | some (id, bytes) =>
          .ok ({ st with buf := some (id, listWrite bytes st.len s),
                         len := st.len + olen },
               fresh, [])
    else
      match (checked_next_power_of_two (st.capacity + olen)).bind checked_mul2 with
      | none => .error Panic.stringTooLong
      | some newsize =>
        let base : List Nat := List.replicate newsize 0
        let afterOld : List Nat := listWrite base 0 st.as_bytes
        if olen < st.len then .error Panic.sliceIndexFault
        else if olen - st.len ≠ olen then .error Panic.copyFromSliceLenMismatch
        else
          let filled : List Nat := listWrite afterOld st.len s
          let freeOld : List Event :=
            match st.buf with
            | some (oldId, _) => if st.drop then [Event.free oldId] else []
            | none => []
          .ok ({ buf := some (fresh, filled), len := st.len + olen,
                 capacity := newsize, drop := true },
               fresh + 1, [Event.alloc fresh, Event.fill fresh] ++ freeOld)

/-- `impl Drop for FfiString` (lines 379-389): if the buffer is non-null and
a destructor is attached, run it once (it frees the held allocation). -/
def FfiString.drop_impl (st : FfiString) : List Event :=
  match st.buf with
  | some (id, _) => if st.drop then [Event.free id] else []
  | none => []

/-- UTF-8 encoding of a Unicode scalar value (the contract of
`char::encode_utf8`, which `format_args!("{char}")` ultimately writes). -/
def utf8Encode (c : Nat) : List Nat :=
  if c < 128 then [c]
  else if c < 2048 then [192 + c / 64, 128 + c % 64]
  else if c < 65536 then [224 + c / 4096, 128 + c / 64 % 64, 128 + c % 64]
  else [240 + c / 262144, 128 + c / 4096 % 64, 128 + c / 64 % 64, 128 + c % 64]

/-- `StackString<CAP>` (src/str/stack.rs lines 40-43): a fixed `CAP`-byte
buffer plus a length. -/
structure StackString (CAP : Nat) where
  buf : List Nat
  len : Nat
  deriving DecidableEq, Repr

/-- `StackString::new` (stack.rs lines 46-51): zeroed buffer, length `0`. -/
def StackString.new (CAP : Nat) : StackString CAP :=
  { buf := List.replicate CAP 0, len := 0 }

/-- Error type of `StackString::push` (stack.rs line 16). -/
inductive PushError where
  | pushError
  deriving DecidableEq, Repr

/-- `StackString::push` (stack.rs lines 90-92): `write_fmt(format_args!("{char}"))`
boils down to `io::Write::write_all` of the char's UTF-8 encoding through
`Writer::write` (lines 26-31), which writes `min(buf.len(), CAP - len)` bytes;
a short write makes the next `write` return `Ok(0)`, so `write_all` fails and
`write_fmt` reverts the length and reports `PushError`. -/
def StackString.push {CAP : Nat} (st : StackString CAP) (c : Nat) :
    Except PushError (StackString CAP) :=
  let bs := utf8Encode c
  let written := min bs.length (CAP - st.len)
  if written < bs.length then .error PushError.pushError
  else .ok { buf := listWrite st.buf st.len bs, len := st.len + bs.length }

/-- `StackString`'s view as a string slice (`Deref`, stack.rs lines 148-154):
the first `len` bytes of the buffer. -/
def StackString.as_str {CAP : Nat} (st : StackString CAP) : List Nat :=
  st.buf.take st.len

/-- `FfiString::push` (str.rs lines 372-377): format the char into a fresh
`StackString<4>`, `.unwrap()` the result, and delegate to `push_str` on the
stack string's slice. -/
def FfiString.push (st : FfiString) (c : Nat) (fresh : Nat) :
    Except Panic (FfiString × Nat × List Event) :=
  match (StackString.new 4).push c with
  | .error _ => .error Panic.unwrapFailed
  | .ok stack => st.push_str stack.as_str fresh

/-- Run a sequence of `push_str` calls, threading the allocation counter and
concatenating the event traces; stops at the first panic. -/
def runFrom (st : FfiString) (fresh : Nat) :
    List (List Nat) → Except Panic (FfiString × Nat × List Event)
  | [] => .ok (st, fresh, [])
  | s :: rest =>
    match st.push_str s fresh with
    | .error e => .error e
    | .ok (st1, fresh1, ev1) =>
      match runFrom st1 fresh1 rest with
      | .error e => .error e
      | .ok (st2, fresh2, ev2) => .ok (st2, fresh2, ev1 ++ ev2)

/-- Run a sequence of `push_str` calls on an initially empty buffer. -/
def runSeq (ss : List (List Nat)) : Except Panic (FfiString × Nat × List Event) :=
  runFrom FfiString.new 0 ss

/-- The final buffer (if no panic occurred) after a sequence of `push_str`
calls on an initially empty buffer. -/
def runStr (ss : List (List Nat)) : Except Panic FfiString :=
  (runSeq ss).map fun r => r.1

/-- Run a sequence of `FfiString::push` calls (one char each). -/
def runPushFrom (st : FfiString) (fresh : Nat) :
    List Nat → Except Panic (FfiString × Nat × List Event)
  | [] => .ok (st, fresh, [])
  | c :: rest =>
    match st.push c fresh with
    | .error e => .error e
    | .ok (st1, fresh1, ev1) =>
      match runPushFrom st1 fresh1 rest with
      | .error e => .error e
      | .ok (st2, fresh2, ev2) => .ok (st2, fresh2, ev1 ++ ev2)

/-- `FfiStr` (str.rs lines 29-31) is a UTF-8 string slice; modelled by its
bytes.  `FfiStr::from_str` / `as_str` (lines 37-49) are the identity on the
underlying bytes. -/
abbrev FfiStr := List Nat

/-- `FfiStrPtr` (str.rs lines 114-118): a wide pointer.  `buf` models the
memory region the pointer gives access to, `len` the length field. -/
structure FfiStrPtr where
  buf : List Nat
  len : Nat
  deriving DecidableEq, Repr

/-- `FfiStr::as_ptr` (lines 68-74): wide pointer to the slice's own bytes
with its length. -/
def FfiStr.as_ptr (s : FfiStr) : FfiStrPtr :=
  { buf := s, len := s.length }

/-- `FfiStrPtr::is_empty` (lines 131-133). -/
def FfiStrPtr.is_empty (p : FfiStrPtr) : Bool := p.len == 0

/-- `FfiStrPtr::as_str` (lines 136-144), exactly as written: when
`is_empty()` it builds the slice from the raw parts (reading `len` bytes),
otherwise it returns the empty string literal. -/
def FfiStrPtr.as_str (p : FfiStrPtr) : List Nat :=
  if p.is_empty then p.buf.take p.len else []

/-- `FfiStr::to_ffi_string` via `impl From<&FfiStr> for FfiString`
(lines 431-435): convert through `as_str` and `From<&str>`. -/
def FfiStr.to_ffi_string (s : FfiStr) (fresh : Nat) :
    FfiString × Nat × List Event :=
  FfiString.from_str s fresh

/-- The owned-buffer invariant stated by the spec, plus the machine-word
bound that is implicit in the fields being `usize`. -/
def Inv (st : FfiString) : Prop :=
  st.len ≤ st.capacity ∧ st.capacity ≤ USIZE_MAX ∧
    (st.buf = none → st.len = 0 ∧ st.capacity = 0 ∧ st.drop = false)

/-- Heap-trace well-formedness: `fresh` dominates every identifier seen so
far, allocation identifiers are unique, the live allocation (if any) has been
allocated, not freed, and carries a destructor, and every dead allocation has
been freed exactly once. -/
def Owns (st : FfiString) (fresh : Nat) (evs : List Event) : Prop :=
  (∀ id, countEv (Event.alloc id) evs ≤ 1) ∧
  (∀ id, fresh ≤ id →
    countEv (Event.alloc id) evs = 0 ∧ countEv (Event.free id) evs = 0) ∧
  (∀ id, st.bufId = some id →
    st.drop = true ∧ id < fresh ∧ countEv (Event.alloc id) evs = 1 ∧
      countEv (Event.free id) evs = 0) ∧
  (∀ id, st.bufId ≠ some id →
    countEv (Event.free id) evs = countEv (Event.alloc id) evs)

/-! ### Arithmetic facts about the growth computation -/

theorem countEv_nil (e : Event) : countEv e [] = 0 := rfl

theorem countEv_cons (e x : Event) (l : List Event) :
    countEv e (x :: l) = (if x = e then 1 else 0) + countEv e l := rfl

theorem countEv_append (e : Event) (l1 l2 : List Event) :
    countEv e (l1 ++ l2) = countEv e l1 + countEv e l2 := by
  induction l1 with
  | nil => simp [countEv]
  | cons x xs ih => simp [countEv, ih]; omega

theorem next_power_of_two_aux_isPow2 (f n : Nat) :
    IsPow2 (next_power_of_two_aux f n) := by
  induction f generalizing n with
  | zero => exact ⟨0, rfl⟩
  | succ f ih =>
    simp only [next_power_of_two_aux]
    by_cases h1 : n ≤ 1
    · rw [if_pos h1]; exact ⟨0, rfl⟩
    · rw [if_neg h1]
      obtain ⟨k, hk⟩ := ih ((n + 1) / 2)
      exact ⟨k + 1, by rw [hk, pow_succ]; ring⟩

theorem le_next_power_of_two_aux (f : Nat) : ∀ n : Nat, n ≤ 2 ^ f →
    n ≤ next_power_of_two_aux f n := by
  induction f with
  | zero => intro n h; simpa [next_power_of_two_aux] using h
  | succ f ih =>
    intro n h
    simp only [next_power_of_two_aux]
    by_cases h1 : n ≤ 1
    · rw [if_pos h1]; exact h1
    · rw [if_neg h1]
      rw [pow_succ] at h
      have h2 : (n + 1) / 2 ≤ 2 ^ f := by omega
      have h3 := ih ((n + 1) / 2) h2
      omega

theorem next_power_of_two_aux_le (f : Nat) : ∀ n k : Nat, n ≤ 2 ^ f → n ≤ 2 ^ k →
    next_power_of_two_aux f n ≤ 2 ^ k := by
  induction f with
  | zero =>
    intro n k _ _
    simpa [next_power_of_two_aux] using Nat.one_le_pow k 2 (by norm_num)
  | succ f ih =>
    intro n k hf hk
    simp only [next_power_of_two_aux]
    by_cases h1 : n ≤ 1
    · rw [if_pos h1]; exact Nat.one_le_pow k 2 (by norm_num)
    · rw [if_neg h1]
      cases k with
      | zero => simp at hk; omega
      | succ k =>
        rw [pow_succ] at hf hk
        have h2 : (n + 1) / 2 ≤ 2 ^ f := by omega
        have h3 : (n + 1) / 2 ≤ 2 ^ k := by omega
        have h4 := ih ((n + 1) / 2) k h2 h3
        rw [pow_succ]
        omega

theorem next_power_of_two_isPow2 (n : Nat) : IsPow2 (next_power_of_two n) :=
  next_power_of_two_aux_isPow2 70 n

theorem le_next_power_of_two (n : Nat) (h : n ≤ 2 ^ 70) :
    n ≤ next_power_of_two n :=
  le_next_power_of_two_aux 70 n h

theorem next_power_of_two_le (n k : Nat) (h : n ≤ 2 ^ 70) (hk : n ≤ 2 ^ k) :
    next_power_of_two n ≤ 2 ^ k :=
  next_power_of_two_aux_le 70 n k h hk

/-- `next_power_of_two n` is the least power of two that is `≥ n`,
for every `n` in the range the growth computation can produce. -/
theorem next_power_of_two_least (n : Nat) (h : n ≤ 2 ^ 70) :
    IsPow2 (next_power_of_two n) ∧ n ≤ next_power_of_two n ∧
      ∀ q, IsPow2 q → n ≤ q → next_power_of_two n ≤ q := by
  refine ⟨next_power_of_two_isPow2 n, le_next_power_of_two n h, ?_⟩
  rintro q ⟨k, rfl⟩ hq
  exact next_power_of_two_le n k h hq

/-! ### Claim theorems: concrete evaluations -/

/-- Claim C1 (code bug): the claimed concatenation law fails.  Starting from
the empty buffer, appending the byte sequence of `"a"` and then of `"ab"`
makes the second `push_str` panic in `copy_from_slice` instead of producing
the concatenation: the reallocation copy at line 340 slices
`[self.len..olen]` (here `[1..2]`, length `1`) where the source slice has
length `2`. -/
theorem push_str_concat_fails_on_a_ab :
    runStr [[97], [97, 98]] = .error Panic.copyFromSliceLenMismatch := rfl

/-- Claim C4 (code bug): the borrowed-view round trip through a wide pointer
fails for every non-empty string.  `FfiStrPtr::as_str` (lines 136-144) has
its emptiness guard inverted: it reads the bytes only when `len == 0` and
returns `""` otherwise, so the wide pointer built from `"Hi!"` converts back
to the empty string. -/
theorem ffistrptr_as_str_round_trip_fails :
    (FfiStr.as_ptr [72, 105, 33]).as_str = [] ∧
      ([72, 105, 33] : List Nat) ≠ [] := ⟨rfl, by decide⟩

/-- Claim C9: starting from `FfiString::new()`, `push_str("Hello, ")` then
`push_str("world!")` terminates normally with contents `"Hello, world!"`
(bytes shown) and `len() = 13`. -/
theorem push_str_hello_world_scenario :
    ∃ st : FfiString,
      runStr [[72, 101, 108, 108, 111, 44, 32], [119, 111, 114, 108, 100, 33]] =
        .ok st ∧
      st.as_bytes = [72, 101, 108, 108, 111, 44, 32, 119, 111, 114, 108, 100, 33] ∧
      st.len = 13 :=
  ⟨{ buf := some (0, [72, 101, 108, 108, 111, 44, 32, 119, 111, 114, 108, 100,
        33, 0, 0, 0]),
     len := 13, capacity := 16, drop := true }, rfl, rfl, rfl⟩

/-- Claim C10 (code bug): `FfiString::push` is claimed never to panic, but
pushing `'a'` three times onto an initially empty buffer panics: the third
push reallocates with `len = 2` and the copy at line 340 slices `[2..1]`,
an invalid range.  (The `StackString` unwrap itself never fires; the panic
comes from the delegated `push_str`.) -/
theorem push_char_panics_on_third_push :
    runPushFrom FfiString.new 0 [97, 97, 97] = .error Panic.sliceIndexFault := rfl

/-- Claim C8: converting a borrowed view into an owned buffer and back into
a borrowed view (`FfiStr::from_str(s).to_ffi_string().as_ffi_str()`) yields
exactly the original bytes, for every string. -/
theorem ffi_str_to_ffi_string_round_trip (s : FfiStr) (fresh : Nat) :
    ((FfiStr.to_ffi_string s fresh).1).as_ffi_str = s := by
  unfold FfiStr.to_ffi_string FfiString.from_str FfiString.from_string
  by_cases h : s.length = 0
  · rw [if_pos h]
    simp [FfiString.as_ffi_str, List.eq_nil_of_length_eq_zero h]
  · rw [if_neg h]
    simp [FfiString.as_ffi_str]

/-! ### Claims C3, C6, C7: the growth path of push_str -/

/-- Characterisation of a successful growth-size computation
(lines 326-329 of str.rs). -/
theorem checked_growth_some (m x : Nat)
    (h : (checked_next_power_of_two m).bind checked_mul2 = some x) :
    x = 2 * next_power_of_two m ∧ 2 * next_power_of_two m ≤ USIZE_MAX := by
  unfold checked_next_power_of_two at h
  by_cases hc : next_power_of_two m ≤ USIZE_MAX
  · rw [if_pos hc] at h
    have h2 : checked_mul2 (next_power_of_two m) = some x := h
    unfold checked_mul2 at h2
    by_cases hc2 : 2 * next_power_of_two m ≤ USIZE_MAX
    · rw [if_pos hc2] at h2
      exact ⟨(Option.some.inj h2).symm, hc2⟩
    · rw [if_neg hc2] at h2
      exact absurd h2 (by simp)
  · rw [if_neg hc] at h
    have h2 : (none : Option Nat) = some x := h
    exact absurd h2 (by simp)

/-- The growth-size computation returns `None` exactly when the doubled
power of two does not fit in `usize`. -/
theorem checked_growth_none (m : Nat)
    (h : USIZE_MAX < 2 * next_power_of_two m) :
    (checked_next_power_of_two m).bind checked_mul2 = none := by
  unfold checked_next_power_of_two
  by_cases hc : next_power_of_two m ≤ USIZE_MAX
  · rw [if_pos hc]
    show checked_mul2 (next_power_of_two m) = none
    unfold checked_mul2
    rw [if_neg (by omega)]
  · rw [if_neg hc]
    rfl

/-- Claim C3: if the growth-size computation (twice the least power of two
`≥ capacity + appended length`) would exceed the addressable range, the
operation fails hard with the `"string is too long"` abort and never
continues with a wrapped or truncated size.  `p` is the true (unbounded)
least power of two `≥ capacity + s.length`; the bound `≤ 2 ^ 64` holds for
any real pair of `usize` values. -/
theorem push_str_growth_overflow_aborts (st : FfiString) (s : List Nat)
    (fresh p : Nat) (hs : s ≠ [])
    (hgrow : st.capacity < st.len + s.length)
    (hsum : st.capacity + s.length ≤ 2 ^ 64)
    (hp2 : IsPow2 p) (hge : st.capacity + s.length ≤ p)
    (hmin : ∀ q, IsPow2 q → st.capacity + s.length ≤ q → p ≤ q)
    (hovf : 2 ^ 64 ≤ 2 * p) :
    st.push_str s fresh = .error Panic.stringTooLong := by
  have hb : st.capacity + s.length ≤ 2 ^ 70 := le_trans hsum (by norm_num)
  obtain ⟨hP, hle, hleast⟩ := next_power_of_two_least (st.capacity + s.length) hb
  have hnp : next_power_of_two (st.capacity + s.length) = p :=
    le_antisymm (hleast p hp2 hge) (hmin _ hP hle)
  simp only [FfiString.push_str]
  rw [if_neg hs, if_neg (by omega)]
  have hnone :
      (checked_next_power_of_two (st.capacity + s.length)).bind checked_mul2 =
        none :=
    checked_growth_none _ (by rw [hnp]; unfold USIZE_MAX; omega)
  rw [hnone]

theorem push_str_growth_overflow_aborts_witness :
    FfiString.push_str
        { buf := some (0, []), len := 2 ^ 63 - 1, capacity := 2 ^ 63 - 1,
          drop := true } [65] 5 = .error Panic.stringTooLong :=
  push_str_growth_overflow_aborts _ [65] 5 (2 ^ 63) (by decide)
    (by norm_num) (by norm_num) ⟨63, rfl⟩ (by norm_num)
    (fun q h hq => hq) (by norm_num)

/-- Claim C6: when the appended slice fits (`len + s.len() ≤ capacity`),
`push_str` writes in place and advances the length, leaving the pointer
(allocation identity), capacity and destructor unchanged, performing no
allocation and invoking no destructor (empty event trace, counter
unchanged). -/
theorem push_str_in_place (st : FfiString) (s : List Nat) (fresh id : Nat)
    (bytes : List Nat) (hs : s ≠ [])
    (hfit : st.len + s.length ≤ st.capacity)
    (hbuf : st.buf = some (id, bytes)) :
    st.push_str s fresh =
      .ok ({ buf := some (id, listWrite bytes st.len s),
             len := st.len + s.length, capacity := st.capacity,
             drop := st.drop }, fresh, []) := by
  simp only [FfiString.push_str]
  rw [if_neg hs, if_pos hfit, hbuf]

/-- Scenario D of the spec: appending `"ab"` to a buffer constructed with
capacity exactly 2 happens in place. -/
theorem push_str_in_place_witness :
    FfiString.push_str
        { buf := some (0, [0, 0]), len := 0, capacity := 2, drop := true }
        [97, 98] 1 =
      .ok ({ buf := some (0, [97, 98]), len := 2, capacity := 2,
             drop := true }, 1, []) :=
  push_str_in_place _ [97, 98] 1 0 [0, 0] (by decide) (by decide) rfl

/-- Claim C7: whenever `push_str` reallocates and returns, the new capacity
equals twice the least power of two `≥ capacity + s.len()`, so each
reallocation at least doubles the space relative to what is needed. -/
theorem push_str_growth_rule (st : FfiString) (s : List Nat) (fresh : Nat)
    (st' : FfiString) (c : Nat) (ev : List Event) (hs : s ≠ [])
    (hgrow : st.capacity < st.len + s.length)
    (hsum : st.capacity + s.length ≤ 2 ^ 64)
    (h : st.push_str s fresh = .ok (st', c, ev)) :
    ∃ p, IsPow2 p ∧ st.capacity + s.length ≤ p ∧
      (∀ q, IsPow2 q → st.capacity + s.length ≤ q → p ≤ q) ∧
      st'.capacity = 2 * p ∧
      2 * (st.capacity + s.length) ≤ st'.capacity := by
  have hb : st.capacity + s.length ≤ 2 ^ 70 := le_trans hsum (by norm_num)
  obtain ⟨hP, hle, hleast⟩ := next_power_of_two_least (st.capacity + s.length) hb
  simp only [FfiString.push_str] at h
  rw [if_neg hs, if_neg (by omega)] at h
  split at h
  · exact absurd h (by simp)
  · rename_i newsize hsc
    obtain ⟨hnewsize, hmax⟩ := checked_growth_some _ _ hsc
    split at h
    · exact absurd h (by simp)
    · split at h
      · exact absurd h (by simp)
      · simp only [Except.ok.injEq, Prod.mk.injEq] at h
        obtain ⟨hst, -, -⟩ := h
        have hcap : st'.capacity = newsize := by rw [← hst]
        refine ⟨next_power_of_two (st.capacity + s.length), hP, hle, hleast,
          ?_, ?_⟩
        · rw [hcap, hnewsize]
        · rw [hcap, hnewsize]; omega

theorem push_str_growth_rule_witness :
    ∃ p, IsPow2 p ∧ FfiString.new.capacity + [104, 105, 33].length ≤ p ∧
      (∀ q, IsPow2 q → FfiString.new.capacity + [104, 105, 33].length ≤ q →
        p ≤ q) ∧
      (FfiString.mk (some (0, [104, 105, 33, 0, 0, 0, 0, 0])) 3 8 true).capacity =
        2 * p ∧
      2 * (FfiString.new.capacity + [104, 105, 33].length) ≤
        (FfiString.mk (some (0, [104, 105, 33, 0, 0, 0, 0, 0])) 3 8 true).capacity :=
  push_str_growth_rule FfiString.new [104, 105, 33] 0
    (FfiString.mk (some (0, [104, 105, 33, 0, 0, 0, 0, 0])) 3 8 true) 1
    [Event.alloc 0, Event.fill 0] (by decide) (by decide) (by decide) rfl

/-! ### Claim C5: the owned-buffer invariant -/

theorem inv_new : Inv FfiString.new :=
  ⟨le_refl 0, Nat.zero_le _, fun _ => ⟨rfl, rfl, rfl⟩⟩

theorem utf8Encode_length_le (c : Nat) : (utf8Encode c).length ≤ 4 := by
  unfold utf8Encode
  split_ifs <;> simp

theorem inv_with_capacity (n fresh : Nat) (hn : n ≤ USIZE_MAX) :
    Inv (FfiString.with_capacity n fresh).1 := by
  unfold FfiString.with_capacity
  by_cases h : n = 0
  · rw [if_pos h]; exact inv_new
  · rw [if_neg h]
    exact ⟨Nat.zero_le n, hn, fun hc => absurd hc (by simp)⟩

theorem inv_from_string (bs : List Nat) (cap fresh : Nat)
    (hlen : bs.length ≤ cap) (hcap : cap ≤ USIZE_MAX) :
    Inv (FfiString.from_string bs cap fresh).1 := by
  unfold FfiString.from_string
  by_cases h : cap = 0
  · rw [if_pos h]
    refine ⟨?_, ?_, fun _ => ⟨?_, ?_, ?_⟩⟩
    · show bs.length ≤ cap
      exact hlen
    · show cap ≤ USIZE_MAX
      exact hcap
    · show bs.length = 0
      omega
    · show cap = 0
      exact h
    · rfl
  · rw [if_neg h]
    exact ⟨hlen, hcap, fun hc => absurd hc (by simp)⟩

theorem inv_from_str (bs : List Nat) (fresh : Nat) (hlen : bs.length ≤ USIZE_MAX) :
    Inv (FfiString.from_str bs fresh).1 :=
  inv_from_string bs bs.length fresh (le_refl _) hlen

theorem inv_push_str (st : FfiString) (s : List Nat) (fresh : Nat)
    (st' : FfiString) (c : Nat) (ev : List Event)
    (hI : Inv st) (hlen : s.length ≤ USIZE_MAX)
    (h : st.push_str s fresh = .ok (st', c, ev)) : Inv st' := by
  obtain ⟨hlc, hcm, hnull⟩ := hI
  simp only [FfiString.push_str] at h
  by_cases hs : s = []
  · rw [if_pos hs] at h
    simp only [Except.ok.injEq, Prod.mk.injEq] at h
    rw [← h.1]
    exact ⟨hlc, hcm, hnull⟩
  · rw [if_neg hs] at h
    by_cases hfit : st.len + s.length ≤ st.capacity
    · -- in place
      rw [if_pos hfit] at h
      split at h
      · exact absurd h (by simp)
      · rename_i id bytes heq
        simp only [Except.ok.injEq, Prod.mk.injEq] at h
        rw [← h.1]
        exact ⟨hfit, hcm, fun hc => absurd hc (by simp)⟩
    · -- reallocation
      rw [if_neg hfit] at h
      split at h
      · exact absurd h (by simp)
      · rename_i newsize hsc
        obtain ⟨hnewsize, hmax⟩ := checked_growth_some _ _ hsc
        have hsum : st.capacity + s.length ≤ 2 ^ 70 := by
          unfold USIZE_MAX at hcm hlen; omega
        have hge := le_next_power_of_two (st.capacity + s.length) hsum
        by_cases h1 : s.length < st.len
        · rw [if_pos h1] at h
          exact absurd h (by simp)
        · rw [if_neg h1] at h
          by_cases h2 : s.length - st.len ≠ s.length
          · rw [if_pos h2] at h
            exact absurd h (by simp)
          · rw [if_neg h2] at h
            simp only [Except.ok.injEq, Prod.mk.injEq] at h
            rw [← h.1]
            refine ⟨?_, ?_, fun hc => absurd hc (by simp)⟩
            · show st.len + s.length ≤ newsize
              unfold USIZE_MAX at hmax
              omega
            · show newsize ≤ USIZE_MAX
              omega

theorem inv_push (st : FfiString) (ch fresh : Nat) (st' : FfiString)
    (c : Nat) (ev : List Event) (hI : Inv st)
    (h : st.push ch fresh = .ok (st', c, ev)) : Inv st' := by
  simp only [FfiString.push] at h
  split at h
  · exact absurd h (by simp)
  · rename_i stack heq
    refine inv_push_str st stack.as_str fresh st' c ev hI ?_ h
    have h1 : stack.as_str.length ≤ stack.len := by
      unfold StackString.as_str
      rw [List.length_take]
      omega
    have h2 : stack.len ≤ 4 := by
      simp only [StackString.push, StackString.new] at heq
      split at heq
      · exact absurd heq (by simp)
      · simp only [Except.ok.injEq] at heq
        rw [← heq]
        show 0 + (utf8Encode ch).length ≤ 4
        have := utf8Encode_length_le ch
        omega
    have h3 : (4 : Nat) ≤ USIZE_MAX := by unfold USIZE_MAX; omega
    omega

/-- Claim C5: every owned buffer produced by the public constructors
(`new`, `with_capacity`, `From<String>`, `From<&str>`) satisfies the
invariant (`len ≤ capacity`, capacity a `usize`, and a null buffer has
zero length, zero capacity and no destructor), and both mutators
(`push_str`, `push`) preserve it whenever they return.  The `usize` bounds
in the hypotheses are implicit in the Rust types (`String` lengths and
slice lengths are `usize`). -/
theorem ffi_string_invariant :
    Inv FfiString.new ∧
    (∀ n fresh, n ≤ USIZE_MAX → Inv (FfiString.with_capacity n fresh).1) ∧
    (∀ bs cap fresh, bs.length ≤ cap → cap ≤ USIZE_MAX →
      Inv (FfiString.from_string bs cap fresh).1) ∧
    (∀ bs fresh, bs.length ≤ USIZE_MAX → Inv (FfiString.from_str bs fresh).1) ∧
    (∀ st s fresh st' c ev, Inv st → s.length ≤ USIZE_MAX →
      FfiString.push_str st s fresh = .ok (st', c, ev) → Inv st') ∧
    (∀ st ch fresh st' c ev, Inv st →
      FfiString.push st ch fresh = .ok (st', c, ev) → Inv st') :=
  ⟨inv_new, fun n fresh hn => inv_with_capacity n fresh hn,
   fun bs cap fresh h1 h2 => inv_from_string bs cap fresh h1 h2,
   fun bs fresh h1 => inv_from_str bs fresh h1,
   fun st s fresh st' c ev h1 h2 h3 => inv_push_str st s fresh st' c ev h1 h2 h3,
   fun st ch fresh st' c ev h1 h2 => inv_push st ch fresh st' c ev h1 h2⟩

theorem ffi_string_invariant_witness :
    Inv { buf := some (0, [104, 0]), len := 1, capacity := 2, drop := true } :=
  ffi_string_invariant.2.2.2.2.1 FfiString.new [104] 0
    { buf := some (0, [104, 0]), len := 1, capacity := 2, drop := true } 1
    [Event.alloc 0, Event.fill 0] inv_new (by decide) rfl

/-! ### Claim C2: every allocation is freed exactly once -/

theorem countEv_alloc_pair (fresh id : Nat) :
    countEv (Event.alloc id) [Event.alloc fresh, Event.fill fresh] =
      if fresh = id then 1 else 0 := by
  by_cases hfid : fresh = id <;> simp [countEv, hfid]

theorem countEv_free_pair (fresh id : Nat) :
    countEv (Event.free id) [Event.alloc fresh, Event.fill fresh] = 0 := by
  simp [countEv]

theorem countEv_alloc_single_free (oldId id : Nat) :
    countEv (Event.alloc id) [Event.free oldId] = 0 := by
  simp [countEv]

theorem countEv_free_single_free (oldId id : Nat) :
    countEv (Event.free id) [Event.free oldId] = if oldId = id then 1 else 0 := by
  by_cases hoid : oldId = id <;> simp [countEv, hoid]

theorem drop_impl_none (st : FfiString) (hb : st.buf = none) :
    st.drop_impl = [] := by
  unfold FfiString.drop_impl
  rw [hb]

theorem drop_impl_some (st : FfiString) (i : Nat) (ob : List Nat)
    (hb : st.buf = some (i, ob)) (hd : st.drop = true) :
    st.drop_impl = [Event.free i] := by
  unfold FfiString.drop_impl
  rw [hb]
  simp [hd]

theorem owns_new : Owns FfiString.new 0 [] := by
  refine ⟨fun id => Nat.zero_le 1, fun id _ => ⟨rfl, rfl⟩,
    fun id hid => ?_, fun id _ => rfl⟩
  exact Option.noConfusion hid

theorem push_str_owns {st : FfiString} {s : List Nat} {fresh : Nat}
    {st' : FfiString} {fresh' : Nat} {ev evs : List Event}
    (hO : Owns st fresh evs)
    (h : st.push_str s fresh = .ok (st', fresh', ev)) :
    Owns st' fresh' (evs ++ ev) ∧ fresh ≤ fresh' := by
  obtain ⟨A1, A2, A3, A4⟩ := hO
  simp only [FfiString.push_str] at h
  by_cases hs : s = []
  · rw [if_pos hs] at h
    simp only [Except.ok.injEq, Prod.mk.injEq] at h
    obtain ⟨h1, h2, h3⟩ := h
    subst h1; subst h2; subst h3
    rw [List.append_nil]
    exact ⟨⟨A1, A2, A3, A4⟩, le_refl fresh⟩
  · rw [if_neg hs] at h
    by_cases hfit : st.len + s.length ≤ st.capacity
    · -- in place: same allocation, no events
      rw [if_pos hfit] at h
      split at h
      · exact absurd h (by simp)
      · rename_i id0 bytes heq
        simp only [Except.ok.injEq, Prod.mk.injEq] at h
        obtain ⟨h1, h2, h3⟩ := h
        subst h1; subst h2; subst h3
        rw [List.append_nil]
        have hbid :
            FfiString.bufId
                ⟨some (id0, listWrite bytes st.len s), st.len + s.length,
                  st.capacity, st.drop⟩ = st.bufId := by
          unfold FfiString.bufId
          rw [heq]
          rfl
        refine ⟨⟨A1, A2, ?_, ?_⟩, le_refl fresh⟩
        · intro id hid
          rw [hbid] at hid
          exact A3 id hid
        · intro id hid
          rw [hbid] at hid
          exact A4 id hid
    · -- reallocation
      rw [if_neg hfit] at h
      split at h
      · exact absurd h (by simp)
      · rename_i newsize hsc
        by_cases h1 : s.length < st.len
        · rw [if_pos h1] at h
          exact absurd h (by simp)
        · rw [if_neg h1] at h
          by_cases h2 : s.length - st.len ≠ s.length
          · rw [if_pos h2] at h
            exact absurd h (by simp)
          · rw [if_neg h2] at h
            simp only [Except.ok.injEq, Prod.mk.injEq] at h
            obtain ⟨hst, hfr, hev⟩ := h
            subst hst; subst hfr; subst hev
            refine ⟨?_, by omega⟩
            cases hb : st.buf with
            | none =>
              have hbid : st.bufId = none := by simp [FfiString.bufId, hb]
              simp only [hb, List.append_nil]
              refine ⟨fun id => ?_, fun id hid => ?_, fun id hid => ?_,
                fun id hid => ?_⟩
              · -- unique allocation
                rw [countEv_append, countEv_alloc_pair]
                by_cases hfid : fresh = id
                · subst hfid
                  have := (A2 fresh (le_refl fresh)).1
                  simp [this]
                · have := A1 id
                  simp [hfid]
                  omega
              · -- ids above the counter are untouched
                rw [countEv_append, countEv_append, countEv_alloc_pair,
                  countEv_free_pair]
                have := A2 id (by omega)
                have hne : fresh ≠ id := by omega
                simp [hne, this.1, this.2]
              · -- the new allocation is live, allocated once, never freed
                simp only [FfiString.bufId, Option.map_some] at hid
                have hid2 : fresh = id := by
                  simpa using hid
                subst hid2
                have hA2 := A2 fresh (le_refl fresh)
                refine ⟨rfl, by omega, ?_, ?_⟩
                · rw [countEv_append, countEv_alloc_pair]
                  simp [hA2.1]
                · rw [countEv_append, countEv_free_pair]
                  simp [hA2.2]
              · -- dead ids are balanced
                simp only [FfiString.bufId, Option.map_some] at hid
                have hne : fresh ≠ id := fun hc => hid (by simp [hc])
                rw [countEv_append, countEv_append, countEv_alloc_pair,
                  countEv_free_pair]
                have h4 := A4 id (by rw [hbid]; simp)
                simp [hne, h4]
            | some p =>
              obtain ⟨oldId, ob⟩ := p
              have hbid : st.bufId = some oldId := by
                simp [FfiString.bufId, hb]
              obtain ⟨hdrop, hlt, hAo, hFo⟩ := A3 oldId hbid
              simp only [hb, hdrop, if_true]
              refine ⟨fun id => ?_, fun id hid => ?_, fun id hid => ?_,
                fun id hid => ?_⟩
              · rw [countEv_append, countEv_append, countEv_alloc_pair,
                  countEv_alloc_single_free]
                by_cases hfid : fresh = id
                · subst hfid
                  have := (A2 fresh (le_refl fresh)).1
                  simp [this]
                · have := A1 id
                  simp [hfid]
                  omega
              · rw [countEv_append, countEv_append, countEv_append,
                  countEv_append, countEv_alloc_pair, countEv_free_pair,
                  countEv_alloc_single_free, countEv_free_single_free]
                have := A2 id (by omega)
                have hne : fresh ≠ id := by omega
                have hne2 : oldId ≠ id := by omega
                simp [hne, hne2, this.1, this.2]
              · simp only [FfiString.bufId, Option.map_some] at hid
                have hid2 : fresh = id := by simpa using hid
                subst hid2
                have hA2 := A2 fresh (le_refl fresh)
                have hne2 : oldId ≠ fresh := by omega
                refine ⟨rfl, by omega, ?_, ?_⟩
                · rw [countEv_append, countEv_append, countEv_alloc_pair,
                    countEv_alloc_single_free]
                  simp [hA2.1]
                · rw [countEv_append, countEv_append, countEv_free_pair,
                    countEv_free_single_free]
                  simp [hA2.2, hne2]
              · simp only [FfiString.bufId, Option.map_some] at hid
                have hne : fresh ≠ id := fun hc => hid (by simp [hc])
                rw [countEv_append, countEv_append, countEv_append,
                  countEv_append, countEv_alloc_pair, countEv_free_pair,
                  countEv_alloc_single_free, countEv_free_single_free]
                by_cases hoid : oldId = id
                · subst hoid
                  simp [hne, hAo, hFo]
                · have h4 := A4 id (by rw [hbid]; simp [hoid])
                  simp [hne, hoid, h4]

theorem runFrom_owns : ∀ (ss : List (List Nat)) (st : FfiString)
    (fresh : Nat) (evs : List Event) (st' : FfiString) (fresh' : Nat)
    (ev : List Event), Owns st fresh evs →
    runFrom st fresh ss = .ok (st', fresh', ev) →
    Owns st' fresh' (evs ++ ev) := by
  intro ss
  induction ss with
  | nil =>
    intro st fresh evs st' fresh' ev hO h
    simp only [runFrom, Except.ok.injEq, Prod.mk.injEq] at h
    obtain ⟨h1, h2, h3⟩ := h
    subst h1; subst h2; subst h3
    rw [List.append_nil]
    exact hO
  | cons s rest ih =>
    intro st fresh evs st' fresh' ev hO h
    simp only [runFrom] at h
    split at h
    · exact absurd h (by simp)
    · rename_i st1 fresh1 ev1 hpush
      split at h
      · exact absurd h (by simp)
      · rename_i st2 fresh2 ev2 hrun
        simp only [Except.ok.injEq, Prod.mk.injEq] at h
        obtain ⟨h1, h2, h3⟩ := h
        subst h1; subst h2; subst h3
        have hO1 := (push_str_owns hO hpush).1
        have hO2 := ih st1 fresh1 (evs ++ ev1) st2 fresh2 ev2 hO1 hrun
        rw [← List.append_assoc]
        exact hO2

theorem owns_final (st : FfiString) (fresh : Nat) (evs : List Event)
    (hO : Owns st fresh evs) (id : Nat) :
    countEv (Event.free id) (evs ++ st.drop_impl) =
      countEv (Event.alloc id) (evs ++ st.drop_impl) ∧
    countEv (Event.alloc id) (evs ++ st.drop_impl) ≤ 1 := by
  obtain ⟨A1, A2, A3, A4⟩ := hO
  cases hb : st.buf with
  | none =>
    rw [drop_impl_none st hb, List.append_nil]
    have hbid : st.bufId = none := by simp [FfiString.bufId, hb]
    exact ⟨A4 id (by rw [hbid]; simp), A1 id⟩
  | some p =>
    obtain ⟨i, ob⟩ := p
    have hbid : st.bufId = some i := by simp [FfiString.bufId, hb]
    obtain ⟨hdrop, hlt, hAo, hFo⟩ := A3 i hbid
    rw [drop_impl_some st i ob hb hdrop]
    rw [countEv_append, countEv_append, countEv_alloc_single_free,
      countEv_free_single_free]
    by_cases hiid : i = id
    · subst hiid
      simp [hAo, hFo, A1 i]
    · have h4 := A4 id (by rw [hbid]; simp [hiid])
      simp [hiid, h4]
      exact A1 id

theorem push_str_free_after_fill (st : FfiString) (s : List Nat)
    (fresh : Nat) (st' : FfiString) (fresh' : Nat) (ev : List Event)
    (hfr : st.bufId ≠ some fresh)
    (h : st.push_str s fresh = .ok (st', fresh', ev)) :
    ∀ (i id : Nat), ev[i]? = some (Event.free id) →
      (∃ j : Nat, j < i ∧ ∃ id2 : Nat, ev[j]? = some (Event.fill id2)) ∧
        st'.bufId ≠ some id := by
  simp only [FfiString.push_str] at h
  by_cases hs : s = []
  · rw [if_pos hs] at h
    simp only [Except.ok.injEq, Prod.mk.injEq] at h
    obtain ⟨-, -, hev⟩ := h
    subst hev
    intro i id hi
    simp at hi
  · rw [if_neg hs] at h
    by_cases hfit : st.len + s.length ≤ st.capacity
    · rw [if_pos hfit] at h
      split at h
      · exact absurd h (by simp)
      · simp only [Except.ok.injEq, Prod.mk.injEq] at h
        obtain ⟨-, -, hev⟩ := h
        subst hev
        intro i id hi
        simp at hi
    · rw [if_neg hfit] at h
      split at h
      · exact absurd h (by simp)
      · rename_i newsize hsc
        by_cases h1 : s.length < st.len
        · rw [if_pos h1] at h
          exact absurd h (by simp)
        · rw [if_neg h1] at h
          by_cases h2 : s.length - st.len ≠ s.length
          · rw [if_pos h2] at h
            exact absurd h (by simp)
          · rw [if_neg h2] at h
            simp only [Except.ok.injEq, Prod.mk.injEq] at h
            obtain ⟨hst, -, hev⟩ := h
            subst hst; subst hev
            cases hb : st.buf with
            | none =>
              simp only [hb, List.append_nil]
              intro i id hi
              rcases i with _ | _ | i <;> simp at hi
            | some p =>
              obtain ⟨oldId, ob⟩ := p
              have hbid : st.bufId = some oldId := by
                simp [FfiString.bufId, hb]
              have holdfr : oldId ≠ fresh := fun hc => hfr (by rw [hbid, hc])
              by_cases hd : st.drop = true
              · simp only [hb, hd, if_true]
                intro i id hi
                rcases i with _ | _ | _ | i <;> simp at hi
                refine ⟨⟨1, by omega, fresh, by simp⟩, ?_⟩
                simp only [FfiString.bufId, Option.map_some]
                subst hi
                simp
                omega
              · simp only [hb, if_neg hd, List.append_nil]
                intro i id hi
                rcases i with _ | _ | i <;> simp at hi

/-- Claim C2: destructor discipline of the owned buffer.  (i) a buffer that
never allocated (`FfiString::new`) performs no deallocation on destruction;
(ii) across any successful sequence of `push_str` operations starting from
`new` and ending in destruction, every heap allocation's destructor runs
exactly once (free count = alloc count, and each allocation happens at most
once); (iii) within a single `push_str` call, any destructor invocation
happens only after the new buffer has been filled, and the destroyed
allocation is not the one the buffer holds afterwards — so normal
destruction of the value never frees it again. -/
theorem ffi_string_drop_exactly_once :
    FfiString.new.drop_impl = [] ∧
    (∀ ss st c evs, runSeq ss = .ok (st, c, evs) →
      ∀ id, countEv (Event.free id) (evs ++ st.drop_impl) =
              countEv (Event.alloc id) (evs ++ st.drop_impl) ∧
            countEv (Event.alloc id) (evs ++ st.drop_impl) ≤ 1) ∧
    (∀ st s fresh st' fresh' ev, st.bufId ≠ some fresh →
      FfiString.push_str st s fresh = .ok (st', fresh', ev) →
      ∀ (i id : Nat), ev[i]? = some (Event.free id) →
        (∃ j : Nat, j < i ∧ ∃ id2 : Nat, ev[j]? = some (Event.fill id2)) ∧
          st'.bufId ≠ some id) := by
  refine ⟨rfl, ?_, ?_⟩
  · intro ss st c evs h id
    have hO : Owns st c ([] ++ evs) :=
      runFrom_owns ss FfiString.new 0 [] st c evs owns_new h
    rw [List.nil_append] at hO
    exact owns_final st c evs hO id
  · intro st s fresh st' fresh' ev hfr hpush
    exact push_str_free_after_fill st s fresh st' fresh' ev hfr hpush

theorem ffi_string_drop_exactly_once_witness :
    countEv (Event.free 0)
        ([Event.alloc 0, Event.fill 0] ++
          FfiString.drop_impl
            { buf := some (0, [72, 0]), len := 1, capacity := 2,
              drop := true }) =
      countEv (Event.alloc 0)
        ([Event.alloc 0, Event.fill 0] ++
          FfiString.drop_impl
            { buf := some (0, [72, 0]), len := 1, capacity := 2,
              drop := true }) ∧
    countEv (Event.alloc 0)
        ([Event.alloc 0, Event.fill 0] ++
          FfiString.drop_impl
            { buf := some (0, [72, 0]), len := 1, capacity := 2,
              drop := true }) ≤ 1 :=
  ffi_string_drop_exactly_once.2.1 [[72]]
    { buf := some (0, [72, 0]), len := 1, capacity := 2, drop := true } 1
    [Event.alloc 0, Event.fill 0] rfl 0

end Libcommons
